import Mathlib

/-!
Shallow embedding of the `plot_contacts.py` residue-contact pipeline.

Rows of the pandas data frames are modelled as Lean structures; a data frame
is a list of rows whose pandas index is the list position (the pipeline builds
every frame with a dense 0-based index before the functions studied here run,
and only distinctness of labels matters for `drop`).  Median distances are
modelled as rationals (the code only compares them, never computes with them).
Fallible pandas operations (length-mismatched column assignment, mutation of
the last element of an empty list) are modelled with `Option`.
-/

/-- Atom-level contact record, the columns of the input CSV that the code reads. -/
structure ContactRow where
  contact : String
  donorPosition : Int
  donorResidue : String
  acceptorPosition : Int
  acceptorResidue : String
  medianDistance : Rat
deriving DecidableEq, Repr

/-- Oriented contact record: the columns of `df_tmp` built in
`extract_residues_contacts` (lines 283-289). -/
structure ORow where
  contact : String
  ordinatePosition : Int
  ordinateResidue : String
  abscissaPosition : Int
  abscissaResidue : String
  medianDistance : Rat
  ordinateType : String
deriving DecidableEq, Repr

/-- Reduced residue-pair record: an oriented row plus the derived
"atoms contacts" column added by `get_residues_in_contact`. -/
structure PairRow where
  base : ORow
  atomsContacts : Nat
deriving DecidableEq, Repr

/-- Row of the domains table (`get_domains` input and output). -/
structure DomainRow where
  domain : String
  start : Int
  stop : Int
  color : String
deriving DecidableEq, Repr

/-- Reduced row annotated with the two domain columns that
`update_domains` inserts. -/
structure AnnotRow where
  base : PairRow
  ordinateDomains : Option String
  abscissaDomains : Option String
deriving DecidableEq, Repr

/-- Enumeration of a list with explicit indices starting at `n`; models the
pandas index labels paired with the rows (`df.iterrows`). -/
def enumFromN (n : Nat) : List α → List (Nat × α)
  | [] => []
  | a :: l => (n, a) :: enumFromN (n + 1) l

/-- The pandas `.between(lo, hi)` test (inclusive on both ends). -/
def pdBetween (x lo hi : Int) : Bool := lo ≤ x && x ≤ hi

/-- First-occurrence deduplication by row values: `pd.concat(...).drop_duplicates()`
keeps the first occurrence of every distinct row value. -/
def pdDedup [DecidableEq α] : List α → List α
  | [] => []
  | a :: l => a :: pdDedup (l.filter (fun x => decide (x ≠ a)))
termination_by l => l.length
decreasing_by
  simp only [List.length_cons]
  exact Nat.lt_succ_of_le (List.length_filter_le _ _)

/-- Donor-side orientation of a contact row (ordinate = donor). -/
def donorOriented (r : ContactRow) : ORow :=
  ⟨r.contact, r.donorPosition, r.donorResidue, r.acceptorPosition, r.acceptorResidue,
    r.medianDistance, "donor"⟩

/-- Acceptor-side orientation of a contact row (ordinate = acceptor). -/
def acceptorOriented (r : ContactRow) : ORow :=
  ⟨r.contact, r.acceptorPosition, r.acceptorResidue, r.donorPosition, r.donorResidue,
    r.medianDistance, "acceptor"⟩

/-- Region-of-interest selection and reorientation: lines 255-289 of
`extract_residues_contacts`.  With a region, the donor-in-range and
acceptor-in-range rows are concatenated, value-deduplicated, and each kept
row is oriented by the donor-first test. -/
def selectOrient (rows : List ContactRow) (roi : Option (Int × Int)) : List ORow :=
  match roi with
  | none => rows.map donorOriented
  | some (lo, hi) =>
    let df_donors := rows.filter (fun r => pdBetween r.donorPosition lo hi)
    let df_acceptors := rows.filter (fun r => pdBetween r.acceptorPosition lo hi)
    let kept := pdDedup (df_donors ++ df_acceptors)
    kept.map (fun r =>
      if pdBetween r.donorPosition lo hi then donorOriented r else acceptorOriented r)

/-- The row-label string built at lines 211-212:
`f"{ordinate position}{ordinate residue}_{abscissa position}{abscissa residue}"`. -/
def rowKey (r : ORow) : String :=
  toString r.ordinatePosition ++ r.ordinateResidue ++ "_"
    ++ toString r.abscissaPosition ++ r.abscissaResidue

/-- The grouping condition of lines 215-218: an OR of two conjunctions that
both require equality of the ordinate positions and of the abscissa
positions (the disjunction is written exactly as in the source). -/
def samePairB (x r : ORow) : Bool :=
  (x.ordinatePosition == r.ordinatePosition && x.abscissaPosition == r.abscissaPosition)
    || (x.abscissaPosition == r.abscissaPosition && x.ordinatePosition == r.ordinatePosition)

/-- The group of enumerated rows matching the grouping condition against `r`
(`tmp_df` at lines 215-218). -/
def classOf (e : List (Nat × ORow)) (r : ORow) : List (Nat × ORow) :=
  e.filter (fun q => samePairB q.2 r)

/-- Index label of the first row achieving the minimal median distance
(`tmp_df[["median distance"]].idxmin()`). -/
def idxMin (l : List (Nat × ORow)) : Option Nat :=
  (l.find? (fun p =>
    l.all (fun q => decide (p.2.medianDistance ≤ q.2.medianDistance)))).map Prod.fst

/-- Index label kept for the group of `p` (its `idxmin`; the `getD` default is
never reached because the group always contains `p` itself). -/
def minIdxOf (e : List (Nat × ORow)) (p : Nat × ORow) : Nat :=
  (idxMin (classOf e p.2)).getD p.1

/-- Index labels dropped for the group of `p`: the whole group except its
minimum (`tmp_df.index.drop(idx_min)`). -/
def remOf (e : List (Nat × ORow)) (p : Nat × ORow) : List Nat :=
  ((classOf e p.2).map Prod.fst).filter (fun j => decide (j ≠ minIdxOf e p))

/-- Size of the group of `p` (`len(tmp_df.index)`). -/
def cntOf (e : List (Nat × ORow)) (p : Nat × ORow) : Nat :=
  (classOf e p.2).length

/-- One iteration of the loop at lines 210-225: the accumulator is
(`combinations`, `idx_to_remove`, `combinations_nb_contacts`). -/
def reduceStep (e : List (Nat × ORow)) (acc : List String × List Nat × List Nat)
    (p : Nat × ORow) : List String × List Nat × List Nat :=
  if rowKey p.2 ∈ acc.1 then acc
  else (acc.1 ++ [rowKey p.2], acc.2.1 ++ remOf e p, acc.2.2 ++ [cntOf e p])

/-- Ascending comparison on the ordinate position used by
`df.sort_values(by=["ordinate position"])`. -/
def pairLe (a b : PairRow) : Prop :=
  a.base.ordinatePosition ≤ b.base.ordinatePosition

instance : DecidableRel pairLe := fun a b => inferInstanceAs (Decidable (_ ≤ _))

/-- `get_residues_in_contact` (lines 193-229): group by the oriented position
pair, keep the minimum-distance row of each group, drop the others, assign the
group sizes positionally as the "atoms contacts" column (`none` models the
pandas `ValueError` when the assigned list length does not match), and sort by
ordinate position. -/
def get_residues_in_contact (df : List ORow) : Option (List PairRow) :=
  let e := enumFromN 0 df
  let res := e.foldl (reduceStep e) ([], [], [])
  let kept := e.filter (fun x => decide (¬ x.1 ∈ res.2.1))
  if kept.length = res.2.2.length then
    some (List.insertionSort pairLe
      ((kept.zip res.2.2).map (fun pc => ⟨pc.1.2, pc.2⟩)))
  else none

/-- `extract_residues_contacts` (lines 232-294): select/orient, then reduce. -/
def extract_residues_contacts (rows : List ContactRow) (roi : Option (Int × Int)) :
    Option (List PairRow) :=
  get_residues_in_contact (selectOrient rows roi)

/-- `outliers_contacts` (lines 443-463): collect the index labels of rows whose
residues are closer than the threshold, drop them, and re-index densely. -/
def outliers_contacts (df : List PairRow) (res_dist_thr : Int) : List PairRow :=
  let e := enumFromN 0 df
  let idx_to_remove :=
    (e.filter (fun p =>
      decide (|p.2.base.ordinatePosition - p.2.base.abscissaPosition| < res_dist_thr))).map
      Prod.fst
  (e.filter (fun p => decide (¬ p.1 ∈ idx_to_remove))).map Prod.snd

/-- In-place `df.drop(labels, inplace=True)`: the caller-visible data frame
state loses the dropped rows. -/
def drop_rows (idx : List Nat) : StateM (List PairRow) Unit :=
  fun df => ((), ((enumFromN 0 df).filter (fun p => decide (¬ p.1 ∈ idx))).map Prod.snd)

/-- In-place `df.reset_index(inplace=True, drop=True)`: the identity on the
list model, whose index is the list position. -/
def reset_index : StateM (List PairRow) Unit := fun df => ((), df)

/-- `outliers_contacts` as a state transformer over the caller's data frame:
it reads the shared frame, drops rows from it in place, re-indexes it in
place, and returns the very same frame. -/
def outliers_contacts_proc (res_dist_thr : Int) : StateM (List PairRow) (List PairRow) := do
  let df ← get
  let idx_to_remove :=
    ((enumFromN 0 df).filter (fun p =>
      decide (|p.2.base.ordinatePosition - p.2.base.abscissaPosition| < res_dist_thr))).map
      Prod.fst
  drop_rows idx_to_remove
  reset_index
  get

/-- Indices of the rows detected as embedded by the first pass of
`get_domains` (lines 94-100): a row is embedded when its stop is below the
running maximum stop seen so far. -/
def embedded_raw_idx (raw : List DomainRow) : List Nat :=
  ((enumFromN 0 raw).foldl
    (fun (acc : List Nat × Int) p =>
      if p.2.stop < acc.2 then (acc.1 ++ [p.1], acc.2) else (acc.1, p.2.stop))
    ([], 0)).1

/-- The `previous` bookkeeping dictionary of `get_domains` (line 105). -/
structure GdPrev where
  embedded : Bool
  domain : Option String
  stop : Option Int
  color : Option String
deriving DecidableEq, Repr

/-- Working state of the reconciliation loop of `get_domains`:
the growing `data` rows, `expected_start`, and `previous`. -/
structure GdState where
  data : List DomainRow
  expected_start : Int
  prev : GdPrev
deriving DecidableEq, Repr

/-- `data["stop"][-1] = v` (line 110): mutate the stop of the last emitted
row; `none` models the `IndexError` on an empty list. -/
def modifyLastStop : List DomainRow → Int → Option (List DomainRow)
  | [], _ => none
  | [d], v => some [{ d with stop := v }]
  | d :: d2 :: tl, v => (modifyLastStop (d2 :: tl) v).map (fun l => d :: l)

/-- One iteration of the reconciliation loop of `get_domains` (lines 106-145). -/
def gdStep (use_embedded : Bool) (embIdx : List Nat) (st : Option GdState)
    (p : Nat × DomainRow) : Option GdState :=
  match st with
  | none => none
  | some s =>
    if p.1 ∈ embIdx then
      if use_embedded then
        match modifyLastStop s.data (p.2.start - 1) with
        | none => none
        | some data2 =>
          some { data := data2 ++ [p.2],
                 expected_start := p.2.stop + 1,
                 prev := { s.prev with embedded := true } }
      else some s
    else
      let s1 :=
        if s.prev.embedded then
          { data := s.data ++ [⟨s.prev.domain.getD ("None"), s.expected_start,
                                s.prev.stop.getD 0, s.prev.color.getD ("None")⟩],
            expected_start := s.prev.stop.getD 0 + 1,
            prev := { s.prev with embedded := false } }
        else s
      let s2 :=
        if p.2.start > s1.expected_start then
          { s1 with data := s1.data ++
              [⟨(if p.1 == 0 then "before " ++ p.2.domain
                 else "between " ++ s1.prev.domain.getD ("None") ++ " and " ++ p.2.domain),
                s1.expected_start, p.2.start - 1, "#cecece"⟩] }
        else s1
      some { data := s2.data ++ [p.2],
             expected_start := p.2.stop + 1,
             prev := { embedded := false, domain := some p.2.domain,
                       stop := some p.2.stop, color := some p.2.color } }

/-- `get_domains` (lines 77-148): detect embedded rows, then reconcile the
table, emitting gap fillers and (when `use_embedded`) splitting the
embedding domain around each embedded one. -/
def get_domains (raw : List DomainRow) (use_embedded : Bool) : Option (List DomainRow) :=
  ((enumFromN 0 raw).foldl (gdStep use_embedded (embedded_raw_idx raw))
    (some ⟨[], 1, ⟨false, none, none, none⟩⟩)).map (fun s => s.data)

/-- Number of output intervals whose inclusive range contains the position. -/
def coveredCount (out : List DomainRow) (x : Int) : Nat :=
  out.countP (fun d => d.start ≤ x && x ≤ d.stop)

/-- Largest stop value of a domains table. -/
def maxStop (raw : List DomainRow) : Int :=
  (raw.map (fun d => d.stop)).foldl max 0

/-- Inner loop of `update_domains` (lines 481-486) for one position: every
domain row whose inclusive range contains the position overwrites the slot,
so the final value is the last match. -/
def regionFor (domains : List DomainRow) (pos : Int) : Option String :=
  domains.foldl
    (fun acc d => if d.start ≤ pos ∧ pos ≤ d.stop then some d.domain else acc) none

/-- `update_domains` (lines 466-491) restricted to its pure content: compute
the two domain columns for every reduced row (the CSV write is I/O). -/
def update_domains (df : List PairRow) (domains : List DomainRow) : List AnnotRow :=
  df.map (fun r =>
    ⟨r, regionFor domains r.base.ordinatePosition, regionFor domains r.base.abscissaPosition⟩)

/-- Inclusive containment test of a position in a domain interval. -/
def containsPos (pos : Int) (d : DomainRow) : Bool :=
  decide (d.start ≤ pos ∧ pos ≤ d.stop)

/-- Spec-side description used by the amended C5: the name of the LAST
interval in table order whose inclusive range contains the position. -/
def lastContaining (domains : List DomainRow) (pos : Int) : Option String :=
  (domains.reverse.find? (containsPos pos)).map (fun d => d.domain)

/-- Add `n` to the value stored under the first occurrence of `key`
(`data[name] += ...` on the insertion-ordered Python dict). -/
def bump : List (String × Nat) → String → Nat → List (String × Nat)
  | [], _, _ => []
  | (k, v) :: rest, key, n =>
    if k == key then (k, v + n) :: rest else (k, v) :: bump rest key n

/-- The selection `df[df["abscissa domains"] == name]` (line 517). -/
def absMatch (name : String) (r : AnnotRow) : Bool :=
  r.abscissaDomains == some name

/-- Sum of "atoms contacts" over the rows whose abscissa domain is `name`. -/
def sumFor (df : List AnnotRow) (name : String) : Nat :=
  ((df.filter (absMatch name)).map (fun r => r.base.atomsContacts)).sum

/-- Number of interval rows of the domains table bearing the name. -/
def nameCount (domains : List DomainRow) (name : String) : Nat :=
  domains.countP (fun d => d.domain == name)

/-- One iteration of the aggregation loop of `acceptors_domains_involved`
(lines 516-522): if the domains row's name matches at least one annotated
contact row, create its entry at 0 if absent and add the sum of the matching
rows' "atoms contacts" to it. -/
def aggStep (df : List AnnotRow) (data : List (String × Nat)) (row_domains : DomainRow) :
    List (String × Nat) :=
  let tmp := df.filter (absMatch row_domains.domain)
  if tmp.isEmpty then data
  else
    let data1 :=
      if data.any (fun kv => kv.1 == row_domains.domain) then data
      else data ++ [(row_domains.domain, 0)]
    bump data1 row_domains.domain ((tmp.map (fun r => r.base.atomsContacts)).sum)

/-- The aggregation of `acceptors_domains_involved` (lines 515-523): fold the
step over the domains table rows, starting from the empty insertion-ordered
dict. -/
def acceptors_domains_involved (df : List AnnotRow) (domains : List DomainRow) :
    List (String × Nat) :=
  domains.foldl (aggStep df) []

/-- Decimal value of a digit string, as Python `int()`. -/
def natOfDigits (l : List Char) : Nat :=
  l.foldl (fun n c => 10 * n + (c.toNat - 48)) 0

/-- Attempt to match the regex `(\d+)-(\d+)` anchored at the start of the
character list: a maximal nonempty digit run, a hyphen, a maximal nonempty
digit run (backtracking cannot help because the runs are delimited by
non-digits, so maximal munch is exact). -/
def tryMatchAt (l : List Char) : Option (Nat × Nat) :=
  let d1 := l.takeWhile Char.isDigit
  if d1 = [] then none
  else
    match l.dropWhile Char.isDigit with
    | [] => none
    | c :: r2 =>
      if c = '-' then
        let d2 := r2.takeWhile Char.isDigit
        if d2 = [] then none else some (natOfDigits d1, natOfDigits d2)
      else none

/-- Python `re.search`: try the pattern at every start position, leftmost
match first. -/
def searchRoi : List Char → Option (Nat × Nat)
  | [] => none
  | c :: cs =>
    match tryMatchAt (c :: cs) with
    | some p => some p
    | none => searchRoi cs

/-- `extract_roi` (lines 173-190): `none` models the raised
`ArgumentTypeError`; on a match the two captured integers are returned with
no further validation. -/
def extract_roi (roi_to_extract : List Char) : Option (Int × Int) :=
  (searchRoi roi_to_extract).map (fun p => ((p.1 : Int), (p.2 : Int)))

/-- Spec-side reading of "contains two integers separated by a hyphen": the
string decomposes around a hyphen flanked by nonempty digit runs. -/
def HasIntPair (s : List Char) : Prop :=
  ∃ pre d1 d2 post, s = pre ++ d1 ++ '-' :: (d2 ++ post) ∧ d1 ≠ [] ∧ d2 ≠ [] ∧
    (∀ c ∈ d1, c.isDigit = true) ∧ (∀ c ∈ d2, c.isDigit = true)

/-- Equality of the ordered (ordinate position, abscissa position) pair. -/
def sP (a b : ORow) : Prop :=
  a.ordinatePosition = b.ordinatePosition ∧ a.abscissaPosition = b.abscissaPosition

instance : DecidableRel sP := fun a b => inferInstanceAs (Decidable (_ ∧ _))

/-- Hypothesis of the amended C1: the string row labels of lines 211-212
collide exactly when the ordered position pairs coincide, i.e. residue labels
are a function of position and the unseparated concatenation
`str(position) ++ residue` creates no accidental collisions. -/
def KeysFaithful (df : List ORow) : Prop :=
  ∀ r ∈ df, ∀ s ∈ df, (rowKey r = rowKey s ↔ sP r s)

instance (df : List ORow) : Decidable (KeysFaithful df) :=
  inferInstanceAs (Decidable (∀ r ∈ df, ∀ s ∈ df, _ ↔ _))

/-- Proof-side mirror of the deduplicating loop: the list of group
representatives (first row of each ordered-pair group), given the rows whose
groups were already seen. -/
def pickNew (seen : List ORow) : List (Nat × ORow) → List (Nat × ORow)
  | [] => []
  | p :: l =>
    if seen.any (fun q => samePairB q p.2) then pickNew seen l
    else p :: pickNew (seen ++ [p.2]) l

/-- Concatenation of the removal lists of a list of group representatives. -/
def remsOf (e : List (Nat × ORow)) : List (Nat × ORow) → List Nat
  | [] => []
  | p :: l => remOf e p ++ remsOf e l

/-- Unordered equality of position pairs: equal as written or equal after
swapping the two positions (the relation of claim C1). -/
def swapEq (a b : PairRow) : Bool :=
  (a.base.ordinatePosition == b.base.ordinatePosition &&
      a.base.abscissaPosition == b.base.abscissaPosition)
    || (a.base.ordinatePosition == b.base.abscissaPosition &&
      a.base.abscissaPosition == b.base.ordinatePosition)

/-- No two rows of the list are equal up to swapping the position pair. -/
def noSwapDup : List PairRow → Bool
  | [] => true
  | a :: l => l.all (fun b => !(swapEq a b)) && noSwapDup l

/-- Claim C1 as stated, at one input table: whenever the reducer returns a
table, it has no two rows with the same unordered position pair and its
"atoms contacts" column sums to the input row count. -/
def c1claim (df : List ORow) : Prop :=
  ∀ out ∈ (get_residues_in_contact df).toList,
    noSwapDup out = true ∧ (out.map (fun r => r.atomsContacts)).sum = df.length

instance (df : List ORow) : Decidable (c1claim df) := by
  unfold c1claim; infer_instance

/-- Two-row oriented table whose rows carry the same unordered position pair
in the two opposite orientations. -/
def c1input : List ORow :=
  [⟨"a1", 1, "ALA", 2, "GLY", 3, "donor"⟩,
   ⟨"a2", 2, "GLY", 1, "ALA", 4, "donor"⟩]

/-- Witness table for the amended C1: two rows of one group, one of another. -/
def c1winput : List ORow :=
  [⟨"w1", 3, "GLY", 9, "HIS", 2, "donor"⟩,
   ⟨"w2", 3, "GLY", 9, "HIS", 4, "donor"⟩,
   ⟨"w3", 5, "LYS", 1, "LEU", 1, "acceptor"⟩]

/-- Failing input for C2: the minimum-distance row of the first-keyed group
appears after the first row of the second-keyed group. -/
def c2input : List ORow :=
  [⟨"c0", 1, "ALA", 2, "GLY", 5, "donor"⟩,
   ⟨"c1", 10, "CYS", 20, "ASP", 1, "donor"⟩,
   ⟨"c2", 1, "ALA", 2, "GLY", 1, "donor"⟩]

/-- Probe row whose ordered position pair is (1, 2). -/
def c2probe : ORow := ⟨"c2", 1, "ALA", 2, "GLY", 1, "donor"⟩

/-- The two-row domains table of the spec example: B is embedded in A and is
the last row of the file. -/
def c3input : List DomainRow :=
  [⟨"A", 1, 10, "#fff"⟩, ⟨"B", 5, 7, "#000"⟩]

/-- Domains table for C5: the second interval is nested in the first, so a
position inside both has two matches. -/
def c5doms : List DomainRow :=
  [⟨"D1", 1, 10, "#aaa"⟩, ⟨"D2", 5, 7, "#bbb"⟩]

/-- One reduced contact row whose ordinate position 6 lies in both C5
intervals and whose abscissa position 20 lies in none. -/
def c5df : List PairRow :=
  [⟨⟨"p0", 6, "ALA", 20, "GLY", 1, "donor"⟩, 4⟩]

/-- Contact rows for the C6 witness: donor-in/acceptor-out, both-in, and
neither-in with respect to the region 10-20. -/
def c6rows : List ContactRow :=
  [⟨"k0", 15, "ARG", 30, "SER", 3⟩,
   ⟨"k1", 12, "THR", 18, "VAL", 2⟩,
   ⟨"k2", 25, "TRP", 28, "TYR", 1⟩]

/-- Reduced table for the C7/C9 witnesses: one close pair, one distant pair. -/
def c7df : List PairRow :=
  [⟨⟨"o0", 5, "ALA", 7, "GLY", 2, "donor"⟩, 3⟩,
   ⟨⟨"o1", 5, "ALA", 40, "HIS", 1, "donor"⟩, 2⟩]

/-- Annotated table for the C10 witness: one row on the abscissa domain A. -/
def c10df : List AnnotRow :=
  [⟨⟨⟨"x0", 2, "ALA", 9, "GLY", 1, "donor"⟩, 3⟩, none, some ("A")⟩]

/-- Normalized domains table for the C10 witness: the name A appears in two
interval rows, as produced by an embedded split. -/
def c10doms : List DomainRow :=
  [⟨"A", 1, 4, "#111"⟩, ⟨"B", 5, 7, "#222"⟩, ⟨"A", 8, 10, "#111"⟩]

/-- C1 counterexample: on the two-orientation table `c1input` the reducer
keeps both rows, which are equal up to swapping the position pair, so the
claim as stated fails (the grouping condition of lines 215-218 never merges
swapped orientations). -/
theorem C1_counterexample : ¬ c1claim c1input := by decide

/-- C2 failing-input evaluation: the group of pair (1,2) has two input rows,
yet its kept row carries "atoms contacts" 1 while the singleton group (10,20)
carries 2 — the counts are assigned positionally to the wrong rows. -/
theorem C2_code_bug_eval :
    get_residues_in_contact c2input =
      some [⟨⟨"c2", 1, "ALA", 2, "GLY", 1, "donor"⟩, 1⟩,
            ⟨⟨"c1", 10, "CYS", 20, "ASP", 1, "donor"⟩, 2⟩]
    ∧ c2input.countP (fun r => samePairB r c2probe) = 2 := by decide

/-- C3 failing-input evaluation: with embedding enabled, the spec example
normalizes to only two intervals — the trailing part ("A", 8, 10) of the
split parent is never emitted because the loop ends on an embedded row. -/
theorem C3_eval :
    get_domains c3input true = some [⟨"A", 1, 4, "#fff"⟩, ⟨"B", 5, 7, "#000"⟩] := by decide

/-- C4 failing-input evaluation: position 8 lies below the maximum stop 10 of
the raw table but is contained in no output interval. -/
theorem C4_eval :
    (get_domains c3input true).map (fun out => coveredCount out 8) = some 0
    ∧ maxStop c3input = 10 := by decide

/-- C5 counterexample: position 6 is contained in both intervals; the first
matching interval is D1 but the code assigns D2, the last match. -/
theorem C5_counterexample :
    (update_domains c5df c5doms).map (fun r => r.ordinateDomains) = [some ("D2")]
    ∧ (c5doms.find? (fun d => decide (d.start ≤ 6 ∧ 6 ≤ d.stop))).map (fun d => d.domain) =
        some ("D1")
    ∧ ("D1" : String) ≠ "D2" := by decide

/-- C8 counterexample: a non-increasing range is returned unchanged instead
of being rejected — `extract_roi` performs no lo ≤ hi validation. -/
theorem C8_counterexample :
    extract_roi ['5', '-', '3'] = some (5, 3) ∧ (5 : Int) > 3 := by decide

/-- C9 counterexample: after calling the outlier filter with threshold 4 on a
table holding a below-threshold row (positions 5 and 7), the caller's table
has lost that row — the drop is performed in place on the shared frame. -/
theorem C9_counterexample :
    ((outliers_contacts_proc 4).run c7df).2 = [⟨⟨"o1", 5, "ALA", 40, "HIS", 1, "donor"⟩, 2⟩]
    ∧ c7df = [⟨⟨"o0", 5, "ALA", 7, "GLY", 2, "donor"⟩, 3⟩,
              ⟨⟨"o1", 5, "ALA", 40, "HIS", 1, "donor"⟩, 2⟩]
    ∧ |(5 : Int) - 7| < 4 := by decide

theorem enumFromN_length (n : Nat) (l : List α) : (enumFromN n l).length = l.length := by
  induction l generalizing n with
  | nil => rfl
  | cons a l ih => simp [enumFromN, ih]

theorem mem_enumFromN_le {n : Nat} {l : List α} {p : Nat × α}
    (h : p ∈ enumFromN n l) : n ≤ p.1 := by
  induction l generalizing n with
  | nil => simp [enumFromN] at h
  | cons a l ih =>
    simp only [enumFromN, List.mem_cons] at h
    rcases h with h | h
    · simp [h]
    · exact Nat.le_of_succ_le (ih h)

theorem mem_enumFromN_snd {n : Nat} {l : List α} {p : Nat × α}
    (h : p ∈ enumFromN n l) : p.2 ∈ l := by
  induction l generalizing n with
  | nil => simp [enumFromN] at h
  | cons a l ih =>
    simp only [enumFromN, List.mem_cons] at h
    rcases h with h | h
    · simp [h]
    · exact List.mem_cons_of_mem _ (ih h)

theorem enumFromN_fst_inj {n : Nat} {l : List α} {p q : Nat × α}
    (hp : p ∈ enumFromN n l) (hq : q ∈ enumFromN n l) (h : p.1 = q.1) : p = q := by
  induction l generalizing n with
  | nil => simp [enumFromN] at hp
  | cons a l ih =>
    simp only [enumFromN, List.mem_cons] at hp hq
    rcases hp with hp | hp <;> rcases hq with hq | hq
    · rw [hp, hq]
    · exact absurd (h ▸ mem_enumFromN_le hq) (by simp [hp])
    · exact absurd (h ▸ mem_enumFromN_le hp) (by simp [hq])
    · exact ih hp hq

theorem enumFromN_nodup (n : Nat) (l : List α) : (enumFromN n l).Nodup := by
  induction l generalizing n with
  | nil => simp [enumFromN]
  | cons a l ih =>
    simp only [enumFromN, List.nodup_cons]
    refine ⟨fun hmem => ?_, ih (n + 1)⟩
    have := mem_enumFromN_le hmem
    omega

theorem enumFromN_filter_snd (n : Nat) (l : List α) (P : α → Bool) :
    ((enumFromN n l).filter (fun p => P p.2)).map Prod.snd = l.filter P := by
  induction l generalizing n with
  | nil => rfl
  | cons a l ih =>
    by_cases hP : P a
    · simp [enumFromN, List.filter_cons, hP, ih]
    · simp [enumFromN, List.filter_cons, hP, ih]

theorem mem_map_fst_filter_iff {n : Nat} {l : List α} {g : Nat × α → Bool} {p : Nat × α}
    (hp : p ∈ enumFromN n l) :
    (p.1 ∈ ((enumFromN n l).filter g).map Prod.fst) ↔ g p = true := by
  constructor
  · intro h
    rcases List.mem_map.mp h with ⟨q, hq, hfst⟩
    rcases List.mem_filter.mp hq with ⟨hqe, hg⟩
    exact enumFromN_fst_inj hqe hp hfst ▸ hg
  · intro h
    exact List.mem_map.mpr ⟨p, List.mem_filter.mpr ⟨hp, h⟩, rfl⟩

/-- C7: the Outlier Filter returns exactly the rows at sequence distance at
least the threshold, as an order-preserving sublist (a `filter`), and a
non-positive threshold keeps every row. -/
theorem C7_outliers (df : List PairRow) (t : Int) :
    outliers_contacts df t =
      df.filter (fun r => decide (t ≤ |r.base.ordinatePosition - r.base.abscissaPosition|))
    ∧ (t ≤ 0 → outliers_contacts df t = df) := by
  have main : outliers_contacts df t =
      df.filter (fun r => decide (t ≤ |r.base.ordinatePosition - r.base.abscissaPosition|)) := by
    show ((enumFromN 0 df).filter (fun p => decide (¬ p.1 ∈
        (((enumFromN 0 df).filter (fun p =>
          decide (|p.2.base.ordinatePosition - p.2.base.abscissaPosition| < t))).map
          Prod.fst)))).map Prod.snd = _
    have h1 : ∀ p ∈ enumFromN 0 df,
        (decide (¬ p.1 ∈ (((enumFromN 0 df).filter (fun p =>
          decide (|p.2.base.ordinatePosition - p.2.base.abscissaPosition| < t))).map
          Prod.fst)))
        = (fun q : Nat × PairRow =>
            decide (t ≤ |q.2.base.ordinatePosition - q.2.base.abscissaPosition|)) p := by
      intro p hp
      have hiff := mem_map_fst_filter_iff
        (g := fun p => decide (|p.2.base.ordinatePosition - p.2.base.abscissaPosition| < t)) hp
      by_cases hc : |p.2.base.ordinatePosition - p.2.base.abscissaPosition| < t
      · simp only [decide_eq_true_eq] at hiff
        simp [hiff, hc, not_le.mpr hc]
      · simp only [decide_eq_true_eq] at hiff
        simp [hiff, hc, not_lt.mp hc]
    rw [List.filter_congr h1]
    exact enumFromN_filter_snd 0 df
      (fun r => decide (t ≤ |r.base.ordinatePosition - r.base.abscissaPosition|))
  refine ⟨main, fun ht => ?_⟩
  rw [main]
  apply List.filter_eq_self.mpr
  intro r _
  exact decide_eq_true (le_trans ht (abs_nonneg _))

/-- C7 witness at threshold 0 on a concrete table. -/
theorem C7_outliers_witness :
    outliers_contacts c7df 0 =
      c7df.filter (fun r =>
        decide ((0 : Int) ≤ |r.base.ordinatePosition - r.base.abscissaPosition|))
    ∧ outliers_contacts c7df 0 = c7df :=
  ⟨(C7_outliers c7df 0).1, (C7_outliers c7df 0).2 (by decide)⟩

/-- C9 amended: the Outlier Filter mutates the caller's frame in place — after
the call the caller-visible table equals the returned, filtered table (the
below-threshold rows are gone from both), not the original snapshot. -/
theorem C9_amended (df : List PairRow) (t : Int) :
    ((outliers_contacts_proc t).run df).2 = ((outliers_contacts_proc t).run df).1
    ∧ ((outliers_contacts_proc t).run df).1 = outliers_contacts df t := by
  exact ⟨rfl, rfl⟩

theorem foldl_domain_or (pos : Int) : ∀ (ds : List DomainRow) (acc : Option String),
    ds.foldl (fun acc d => if d.start ≤ pos ∧ pos ≤ d.stop then some d.domain else acc) acc
    = ((ds.reverse.find? (containsPos pos)).map (fun d => d.domain)).or acc := by
  intro ds
  induction ds with
  | nil => intro acc; rfl
  | cons d tl ih =>
    intro acc
    simp only [List.foldl_cons, List.reverse_cons]
    rw [ih, List.find?_append]
    by_cases hc : d.start ≤ pos ∧ pos ≤ d.stop
    · have hcb : containsPos pos d = true := by simp [containsPos, hc]
      rw [if_pos hc]
      rcases hfind : tl.reverse.find? (containsPos pos) with _ | e
      · simp [List.find?, hcb]
      · simp
    · have hcb : containsPos pos d = false := by simp [containsPos, hc]
      rw [if_neg hc]
      rcases hfind : tl.reverse.find? (containsPos pos) with _ | e
      · simp [List.find?, hcb]
      · simp

/-- The per-position content of `update_domains`: the assigned name is the
last matching interval's, since later matches overwrite earlier ones. -/
theorem regionFor_eq_lastContaining (ds : List DomainRow) (pos : Int) :
    regionFor ds pos = lastContaining ds pos := by
  show ds.foldl _ none = _
  rw [foldl_domain_or pos ds none]
  simp [lastContaining]

/-- C5 amended: for every summary table and domains table, `update_domains`
assigns to each row and each side the domain name of the LAST interval in the
domains table's order whose inclusive range contains that side's position,
leaving the entry unset when no interval contains it. -/
theorem C5_amended (df : List PairRow) (domains : List DomainRow) :
    update_domains df domains = df.map (fun r =>
      ⟨r, lastContaining domains r.base.ordinatePosition,
          lastContaining domains r.base.abscissaPosition⟩) := by
  simp only [update_domains, regionFor_eq_lastContaining]

theorem lookup_bump_self (k : String) (n : Nat) : ∀ (l : List (String × Nat)),
    List.lookup k (bump l k n) = (List.lookup k l).map (fun v => v + n) := by
  intro l
  induction l with
  | nil => rfl
  | cons kv tl ih =>
    obtain ⟨k1, v1⟩ := kv
    by_cases h : k1 = k
    · subst h
      simp [bump, List.lookup, beq_self_eq_true]
    · have hb1 : (k1 == k) = false := beq_eq_false_iff_ne.mpr h
      have hb2 : (k == k1) = false := beq_eq_false_iff_ne.mpr (Ne.symm h)
      simp [bump, List.lookup, hb1, hb2, ih]

theorem lookup_bump_other (k key : String) (n : Nat) (h : k ≠ key) :
    ∀ (l : List (String × Nat)), List.lookup k (bump l key n) = List.lookup k l := by
  intro l
  induction l with
  | nil => rfl
  | cons kv tl ih =>
    obtain ⟨k1, v1⟩ := kv
    by_cases h1 : k1 = key
    · subst h1
      have hb : (k == k1) = false := beq_eq_false_iff_ne.mpr h
      simp [bump, List.lookup, beq_self_eq_true, hb]
    · have hb1 : (k1 == key) = false := beq_eq_false_iff_ne.mpr h1
      by_cases h2 : k = k1
      · subst h2
        simp [bump, List.lookup, hb1, beq_self_eq_true]
      · have hb2 : (k == k1) = false := beq_eq_false_iff_ne.mpr h2
        simp [bump, List.lookup, hb1, hb2, ih]

theorem lookup_append_kv (k : String) : ∀ (l1 l2 : List (String × Nat)),
    List.lookup k (l1 ++ l2) = (List.lookup k l1).or (List.lookup k l2) := by
  intro l1 l2
  induction l1 with
  | nil => simp [List.lookup]
  | cons kv tl ih =>
    obtain ⟨k1, v1⟩ := kv
    by_cases h : k = k1
    · subst h
      simp [List.lookup, beq_self_eq_true]
    · have hb : (k == k1) = false := beq_eq_false_iff_ne.mpr h
      simp [List.lookup, hb, ih]

theorem any_key_eq_isSome (k : String) : ∀ (data : List (String × Nat)),
    data.any (fun kv => kv.1 == k) = (List.lookup k data).isSome := by
  intro data
  induction data with
  | nil => rfl
  | cons kv tl ih =>
    obtain ⟨k1, v1⟩ := kv
    by_cases h : k1 = k
    · subst h
      simp [List.lookup, beq_self_eq_true]
    · have hb1 : (k1 == k) = false := beq_eq_false_iff_ne.mpr h
      have hb2 : (k == k1) = false := beq_eq_false_iff_ne.mpr (Ne.symm h)
      simp [List.lookup, hb1, hb2, ih]

theorem agg_lookup (df : List AnnotRow) (name : String)
    (hne : df.filter (absMatch name) ≠ []) :
    ∀ (l : List DomainRow) (data : List (String × Nat)),
      List.lookup name (l.foldl (aggStep df) data)
      = ((List.lookup name data).map (fun v => v + nameCount l name * sumFor df name)).or
          (if nameCount l name = 0 then none
           else some (nameCount l name * sumFor df name)) := by
  intro l
  induction l with
  | nil =>
    intro data
    simp only [List.foldl_nil, nameCount, List.countP_nil, Nat.zero_mul, Nat.add_zero,
      if_pos rfl]
    cases List.lookup name data <;> simp
  | cons d tl ih =>
    intro data
    simp only [List.foldl_cons]
    rw [ih (aggStep df data d)]
    by_cases hd : d.domain = name
    · subst hd
      have hemp : (df.filter (absMatch d.domain)).isEmpty = false := by
        cases hh : (df.filter (absMatch d.domain)).isEmpty
        · rfl
        · exact absurd (List.isEmpty_iff.mp hh) hne
      have hcnt : nameCount (d :: tl) d.domain = nameCount tl d.domain + 1 := by
        simp [nameCount, List.countP_cons]
      rw [hcnt]
      cases hl : List.lookup d.domain data with
      | some v =>
        have hany : data.any (fun kv => kv.1 == d.domain) = true := by
          rw [any_key_eq_isSome, hl]; rfl
        have hstep : List.lookup d.domain (aggStep df data d)
            = some (v + sumFor df d.domain) := by
          simp only [aggStep, hemp, Bool.false_eq_true, if_false, hany, if_true]
          rw [show ((df.filter (absMatch d.domain)).map
              (fun r => r.base.atomsContacts)).sum = sumFor df d.domain from rfl]
          rw [lookup_bump_self, hl]
          rfl
        rw [hstep]
        simp only [Option.map_some', Option.or_some]
        congr 1
        ring
      | none =>
        have hany : data.any (fun kv => kv.1 == d.domain) = false := by
          rw [any_key_eq_isSome, hl]; rfl
        have hstep : List.lookup d.domain (aggStep df data d)
            = some (sumFor df d.domain) := by
          simp only [aggStep, hemp, Bool.false_eq_true, if_false, hany, Bool.false_eq_true,
            if_false]
          rw [show ((df.filter (absMatch d.domain)).map
              (fun r => r.base.atomsContacts)).sum = sumFor df d.domain from rfl]
          rw [lookup_bump_self, lookup_append_kv, hl]
          simp [List.lookup, beq_self_eq_true]
        rw [hstep]
        simp only [Option.map_some', Option.or_some, Option.map_none', Option.none_or]
        have : nameCount tl d.domain + 1 ≠ 0 := Nat.succ_ne_zero _
        rw [if_neg this]
        congr 1
        ring
    · have hcnt : nameCount (d :: tl) name = nameCount tl name := by
        have : (d.domain == name) = false := beq_eq_false_iff_ne.mpr hd
        simp [nameCount, List.countP_cons, this]
      have hstep : List.lookup name (aggStep df data d) = List.lookup name data := by
        simp only [aggStep]
        cases hh : (df.filter (absMatch d.domain)).isEmpty
        · simp only [Bool.false_eq_true, if_false]
          rw [lookup_bump_other name d.domain _ (Ne.symm hd)]
          by_cases hany : data.any (fun kv => kv.1 == d.domain) = true
          · rw [if_pos hany]
          · rw [if_neg hany, lookup_append_kv]
            have : List.lookup name [(d.domain, 0)] = none := by
              have hb : (name == d.domain) = false := beq_eq_false_iff_ne.mpr (Ne.symm hd)
              simp [List.lookup, hb]
            rw [this, Option.or_none]
        · simp
      rw [hstep, hcnt]

/-- C10: when a domain name appears in `k ≥ 1` rows of the normalized domains
table and at least one annotated contact row carries it as abscissa domain,
the aggregation of `acceptors_domains_involved` reports `k` times the sum of
"atoms contacts" over the matching rows, because the per-name sum is added
once per interval row bearing the name. -/
theorem C10_aggregation (df : List AnnotRow) (domains : List DomainRow) (name : String)
    (hk : 1 ≤ nameCount domains name)
    (hne : df.filter (absMatch name) ≠ []) :
    List.lookup name (acceptors_domains_involved df domains)
      = some (nameCount domains name * sumFor df name) := by
  show List.lookup name (domains.foldl (aggStep df) []) = _
  rw [agg_lookup df name hne domains []]
  have : nameCount domains name ≠ 0 := by omega
  simp [List.lookup, this]

/-- C10 witness: the name A appears in two interval rows and one contact row
with abscissa domain A carries 3 atoms contacts; the report is 2 * 3. -/
theorem C10_aggregation_witness :
    List.lookup ("A") (acceptors_domains_involved c10df c10doms) = some 6 := by
  have h := C10_aggregation c10df c10doms ("A") (by decide) (by decide)
  simpa using h

theorem mem_pdDedup [DecidableEq α] (x : α) : ∀ (l : List α), x ∈ pdDedup l ↔ x ∈ l := by
  intro l
  induction l using pdDedup.induct with
  | case1 => simp [pdDedup]
  | case2 a l ih =>
    rw [pdDedup]
    constructor
    · intro h
      rcases List.mem_cons.mp h with h | h
      · exact List.mem_cons.mpr (Or.inl h)
      · exact List.mem_cons_of_mem a (List.mem_filter.mp (ih.mp h)).1
    · intro h
      rcases List.mem_cons.mp h with h | h
      · exact List.mem_cons.mpr (Or.inl h)
      · by_cases hxa : x = a
        · exact List.mem_cons.mpr (Or.inl hxa)
        · exact List.mem_cons_of_mem a
            (ih.mpr (List.mem_filter.mpr ⟨h, decide_eq_true hxa⟩))

theorem nodup_pdDedup [DecidableEq α] : ∀ (l : List α), (pdDedup l).Nodup := by
  intro l
  induction l using pdDedup.induct with
  | case1 => simp [pdDedup]
  | case2 a l ih =>
    rw [pdDedup]
    refine List.nodup_cons.mpr ⟨fun hmem => ?_, ih⟩
    have := (List.mem_filter.mp ((mem_pdDedup a _).mp hmem)).2
    simp at this

theorem donorOriented_inj {x y : ContactRow} (h : donorOriented x = donorOriented y) :
    x = y := by
  cases x; cases y
  simpa [donorOriented] using h

theorem acceptorOriented_inj {x y : ContactRow} (h : acceptorOriented x = acceptorOriented y) :
    x = y := by
  cases x; cases y
  simp only [acceptorOriented, ORow.mk.injEq] at h
  obtain ⟨h1, h2, h3, h4, h5, h6, -⟩ := h
  simp_all

theorem donor_ne_acceptor (x y : ContactRow) : donorOriented x ≠ acceptorOriented y := by
  simp [donorOriented, acceptorOriented]

theorem count_map_eq [DecidableEq α] [DecidableEq β] (f : α → β) (a : α) :
    ∀ (l : List α), (∀ x ∈ l, (f x = f a ↔ x = a)) → (l.map f).count (f a) = l.count a := by
  intro l
  induction l with
  | nil => intro _; rfl
  | cons x tl ih =>
    intro h
    simp only [List.map_cons, List.count_cons]
    rw [ih (fun y hy => h y (List.mem_cons_of_mem _ hy))]
    have hx := h x (List.mem_cons_self x tl)
    by_cases hxa : x = a
    · simp [hxa]
    · have hfx : f x ≠ f a := fun hf => hxa (hx.mp hf)
      simp [hxa, hfx]

/-- C6: with a region of interest [lo, hi], a contact row whose donor position
is in range is oriented donor-side and appears exactly once in the selection
output (whether or not the acceptor is also in range), and a row with neither
position in range appears in neither orientation. -/
theorem C6_selection (rows : List ContactRow) (lo hi : Int) (r : ContactRow)
    (hmem : r ∈ rows) :
    (pdBetween r.donorPosition lo hi = true →
      (selectOrient rows (some (lo, hi))).count (donorOriented r) = 1
      ∧ acceptorOriented r ∉ selectOrient rows (some (lo, hi)))
    ∧ (pdBetween r.donorPosition lo hi = false →
       pdBetween r.acceptorPosition lo hi = false →
      donorOriented r ∉ selectOrient rows (some (lo, hi))
      ∧ acceptorOriented r ∉ selectOrient rows (some (lo, hi))) := by
  have hsel : selectOrient rows (some (lo, hi)) =
      (pdDedup ((rows.filter (fun r => pdBetween r.donorPosition lo hi))
        ++ (rows.filter (fun r => pdBetween r.acceptorPosition lo hi)))).map
        (fun r => if pdBetween r.donorPosition lo hi then donorOriented r
                  else acceptorOriented r) := rfl
  set K := pdDedup ((rows.filter (fun r => pdBetween r.donorPosition lo hi))
    ++ (rows.filter (fun r => pdBetween r.acceptorPosition lo hi))) with hKdef
  set g := fun r : ContactRow => if pdBetween r.donorPosition lo hi then donorOriented r
    else acceptorOriented r with hgdef
  have hKmem : ∀ x : ContactRow, x ∈ K ↔
      (x ∈ rows ∧ (pdBetween x.donorPosition lo hi = true
        ∨ pdBetween x.acceptorPosition lo hi = true)) := by
    intro x
    rw [hKdef, mem_pdDedup, List.mem_append, List.mem_filter, List.mem_filter]
    constructor
    · rintro (⟨h1, h2⟩ | ⟨h1, h2⟩)
      · exact ⟨h1, Or.inl h2⟩
      · exact ⟨h1, Or.inr h2⟩
    · rintro ⟨h1, h2 | h2⟩
      · exact Or.inl ⟨h1, h2⟩
      · exact Or.inr ⟨h1, h2⟩
  have hKnodup : K.Nodup := nodup_pdDedup _
  constructor
  · intro hd
    have hrK : r ∈ K := (hKmem r).mpr ⟨hmem, Or.inl hd⟩
    have hgr : g r = donorOriented r := by rw [hgdef]; simp [hd]
    constructor
    · rw [hsel, ← hgr]
      rw [count_map_eq g r K ?cond]
      · exact List.count_eq_one_of_mem hKnodup hrK
      case cond =>
        intro x _
        constructor
        · intro hgx
          rw [hgr] at hgx
          by_cases hxib : pdBetween x.donorPosition lo hi = true
          · have : donorOriented x = donorOriented r := by
              rw [hgdef] at hgx; simpa [hxib] using hgx
            exact donorOriented_inj this
          · have : acceptorOriented x = donorOriented r := by
              rw [hgdef] at hgx; simpa [hxib] using hgx
            exact absurd this.symm (donor_ne_acceptor r x)
        · intro hx; rw [hx]
    · rw [hsel]
      intro hcon
      rcases List.mem_map.mp hcon with ⟨x, hxK, hgx⟩
      by_cases hxib : pdBetween x.donorPosition lo hi = true
      · have : donorOriented x = acceptorOriented r := by
          rw [hgdef] at hgx; simpa [hxib] using hgx
        exact donor_ne_acceptor x r this
      · have : acceptorOriented x = acceptorOriented r := by
          rw [hgdef] at hgx; simpa [hxib] using hgx
        have hxr := acceptorOriented_inj this
        rw [hxr] at hxib
        exact hxib hd
  · intro hd ha
    have hrK : r ∉ K := by
      intro hcon
      rcases (hKmem r).mp hcon with ⟨_, h2 | h2⟩
      · rw [hd] at h2; exact Bool.false_ne_true h2
      · rw [ha] at h2; exact Bool.false_ne_true h2
    constructor
    · rw [hsel]
      intro hcon
      rcases List.mem_map.mp hcon with ⟨x, hxK, hgx⟩
      by_cases hxib : pdBetween x.donorPosition lo hi = true
      · have : donorOriented x = donorOriented r := by
          rw [hgdef] at hgx; simpa [hxib] using hgx
        exact hrK (donorOriented_inj this ▸ hxK)
      · have : acceptorOriented x = donorOriented r := by
          rw [hgdef] at hgx; simpa [hxib] using hgx
        exact donor_ne_acceptor r x this.symm
    · rw [hsel]
      intro hcon
      rcases List.mem_map.mp hcon with ⟨x, hxK, hgx⟩
      by_cases hxib : pdBetween x.donorPosition lo hi = true
      · have : donorOriented x = acceptorOriented r := by
          rw [hgdef] at hgx; simpa [hxib] using hgx
        exact donor_ne_acceptor x r this
      · have : acceptorOriented x = acceptorOriented r := by
          rw [hgdef] at hgx; simpa [hxib] using hgx
        exact hrK (acceptorOriented_inj this ▸ hxK)

/-- C6 witness: the donor-in/acceptor-out row of `c6rows` is kept once with
donor orientation, and the neither-in row appears in no orientation. -/
theorem C6_selection_witness :
    ((selectOrient c6rows (some (10, 20))).count
        (donorOriented ⟨"k0", 15, "ARG", 30, "SER", 3⟩) = 1
      ∧ acceptorOriented ⟨"k0", 15, "ARG", 30, "SER", 3⟩ ∉ selectOrient c6rows (some (10, 20)))
    ∧ (donorOriented ⟨"k2", 25, "TRP", 28, "TYR", 1⟩ ∉ selectOrient c6rows (some (10, 20))
      ∧ acceptorOriented ⟨"k2", 25, "TRP", 28, "TYR", 1⟩ ∉
          selectOrient c6rows (some (10, 20))) :=
  ⟨(C6_selection c6rows 10 20 ⟨"k0", 15, "ARG", 30, "SER", 3⟩ (by decide)).1 (by decide),
   (C6_selection c6rows 10 20 ⟨"k2", 25, "TRP", 28, "TYR", 1⟩ (by decide)).2
     (by decide) (by decide)⟩

theorem takeWhile_all_append (p : Char → Bool) :
    ∀ (d1 : List Char) (x : Char) (rest : List Char),
      (∀ c ∈ d1, p c = true) → p x = false →
      (d1 ++ x :: rest).takeWhile p = d1 ∧ (d1 ++ x :: rest).dropWhile p = x :: rest := by
  intro d1
  induction d1 with
  | nil =>
    intro x rest _ hx
    simp [List.takeWhile_cons, List.dropWhile_cons, hx]
  | cons c d1 ih =>
    intro x rest hall hx
    have hc : p c = true := hall c (List.mem_cons_self c d1)
    have ihd := ih x rest (fun a ha => hall a (List.mem_cons_of_mem c ha)) hx
    simp [List.takeWhile_cons, List.dropWhile_cons, hc, ihd.1, ihd.2]

theorem searchRoi_isSome_iff : ∀ (s : List Char),
    (searchRoi s).isSome = true ↔ ∃ t, t <:+ s ∧ (tryMatchAt t).isSome = true := by
  intro s
  induction s with
  | nil =>
    constructor
    · intro h; exact absurd h (by simp [searchRoi])
    · rintro ⟨t, hsuf, hsome⟩
      rw [List.suffix_nil.mp hsuf] at hsome
      exact absurd hsome (by simp [tryMatchAt])
  | cons c cs ih =>
    rw [searchRoi]
    rcases htm : tryMatchAt (c :: cs) with _ | p
    · rw [ih]
      constructor
      · rintro ⟨t, hsuf, hsome⟩
        exact ⟨t, hsuf.trans (List.suffix_cons c cs), hsome⟩
      · rintro ⟨t, hsuf, hsome⟩
        rcases List.suffix_cons_iff.mp hsuf with h | h
        · rw [h, htm] at hsome
          exact absurd hsome (by simp)
        · exact ⟨t, h, hsome⟩
    · constructor
      · intro _
        exact ⟨c :: cs, List.suffix_rfl, by rw [htm]; rfl⟩
      · intro _
        rfl

theorem tryMatchAt_shape {t : List Char} (h : (tryMatchAt t).isSome = true) :
    ∃ d1 d2 rest, t = d1 ++ '-' :: (d2 ++ rest) ∧ d1 ≠ [] ∧ d2 ≠ [] ∧
      (∀ c ∈ d1, c.isDigit = true) ∧ (∀ c ∈ d2, c.isDigit = true) := by
  by_cases h1 : t.takeWhile Char.isDigit = []
  · simp [tryMatchAt, h1] at h
  · rcases hdw : t.dropWhile Char.isDigit with _ | ⟨c, r2⟩
    · simp [tryMatchAt, h1, hdw] at h
    · by_cases hc : c = '-'
      · by_cases h2 : r2.takeWhile Char.isDigit = []
        · simp [tryMatchAt, h1, hdw, hc, h2] at h
        · refine ⟨t.takeWhile Char.isDigit, r2.takeWhile Char.isDigit,
            r2.dropWhile Char.isDigit, ?_, h1, h2, ?_, ?_⟩
          · conv_lhs => rw [← List.takeWhile_append_dropWhile Char.isDigit t]
            rw [hdw, hc, List.takeWhile_append_dropWhile Char.isDigit r2]
          · intro a ha; exact List.mem_takeWhile_imp ha
          · intro a ha; exact List.mem_takeWhile_imp ha
      · simp [tryMatchAt, h1, hdw, hc] at h

theorem tryMatchAt_isSome_of (d1 : List Char) (c : Char) (rest : List Char)
    (hd1 : ∀ x ∈ d1, x.isDigit = true) (hne : d1 ≠ []) (hc : c.isDigit = true) :
    (tryMatchAt (d1 ++ '-' :: (c :: rest))).isSome = true := by
  have hhyp : Char.isDigit '-' = false := by decide
  obtain ⟨htw, hdwe⟩ := takeWhile_all_append Char.isDigit d1 '-' (c :: rest) hd1 hhyp
  have hd2 : (c :: rest).takeWhile Char.isDigit = c :: rest.takeWhile Char.isDigit := by
    rw [List.takeWhile_cons, if_pos hc]
  simp [tryMatchAt, htw, hdwe, hne, hd2]

/-- C8 amended: `extract_roi` raises exactly on strings containing no
digits-hyphen-digits substring; a matched range is returned with no ordering
validation (the counterexample returns the non-increasing range 5-3). -/
theorem C8_amended (s : List Char) : extract_roi s = none ↔ ¬ HasIntPair s := by
  have key : (searchRoi s).isSome = true ↔ HasIntPair s := by
    rw [searchRoi_isSome_iff]
    constructor
    · rintro ⟨t, hsuf, hsome⟩
      rcases hsuf with ⟨pre, rfl⟩
      rcases tryMatchAt_shape hsome with ⟨d1, d2, rest, rfl, hne1, hne2, hdig1, hdig2⟩
      exact ⟨pre, d1, d2, rest, by rw [List.append_assoc], hne1, hne2, hdig1, hdig2⟩
    · rintro ⟨pre, d1, d2, post, heq, hne1, hne2, hdig1, hdig2⟩
      rcases d2 with _ | ⟨c, d2t⟩
      · exact absurd rfl hne2
      · refine ⟨d1 ++ '-' :: (c :: (d2t ++ post)), ⟨pre, ?_⟩, ?_⟩
        · simp [heq]
        · exact tryMatchAt_isSome_of d1 c (d2t ++ post) hdig1 hne1
            (hdig2 c (List.mem_cons_self c d2t))
  constructor
  · intro h hip
    have hsome := key.mpr hip
    have : (extract_roi s).isSome = true := by
      show ((searchRoi s).map _).isSome = true
      cases hs : searchRoi s
      · rw [hs] at hsome; exact absurd hsome (by simp)
      · rfl
    rw [h] at this
    exact absurd this (by simp)
  · intro h
    cases hs : extract_roi s with
    | none => rfl
    | some p =>
      have : (searchRoi s).isSome = true := by
        cases hq : searchRoi s
        · exact absurd hs (by show ((searchRoi s).map _) ≠ _; rw [hq]; simp)
        · rfl
      exact absurd (key.mp this) h

theorem samePairB_iff {x r : ORow} : samePairB x r = true ↔ sP x r := by
  simp only [samePairB, sP, Bool.or_eq_true, Bool.and_eq_true, beq_iff_eq]
  tauto

theorem sP_refl (x : ORow) : sP x x := ⟨rfl, rfl⟩

theorem sP_symm {x y : ORow} (h : sP x y) : sP y x := ⟨h.1.symm, h.2.symm⟩

theorem sP_trans {x y z : ORow} (h1 : sP x y) (h2 : sP y z) : sP x z :=
  ⟨h1.1.trans h2.1, h1.2.trans h2.2⟩

theorem pickNew_subset : ∀ (l : List (Nat × ORow)) (seen : List ORow) (p : Nat × ORow),
    p ∈ pickNew seen l → p ∈ l := by
  intro l
  induction l with
  | nil => intro seen p h; simp [pickNew] at h
  | cons q l ih =>
    intro seen p h
    simp only [pickNew] at h
    by_cases hq : seen.any (fun x => samePairB x q.2) = true
    · rw [if_pos hq] at h
      exact List.mem_cons_of_mem q (ih seen p h)
    · rw [if_neg hq] at h
      rcases List.mem_cons.mp h with h | h
      · exact List.mem_cons.mpr (Or.inl h)
      · exact List.mem_cons_of_mem q (ih _ p h)

theorem pickNew_not_seen : ∀ (l : List (Nat × ORow)) (seen : List ORow) (p : Nat × ORow),
    p ∈ pickNew seen l → ∀ s ∈ seen, ¬ sP s p.2 := by
  intro l
  induction l with
  | nil => intro seen p h; simp [pickNew] at h
  | cons q l ih =>
    intro seen p h s hs
    simp only [pickNew] at h
    by_cases hq : seen.any (fun x => samePairB x q.2) = true
    · rw [if_pos hq] at h
      exact ih seen p h s hs
    · rw [if_neg hq] at h
      rcases List.mem_cons.mp h with h | h
      · subst h
        intro hsp
        exact hq (List.any_eq_true.mpr ⟨s, hs, samePairB_iff.mpr hsp⟩)
      · exact ih _ p h s (List.mem_append.mpr (Or.inl hs))

theorem pickNew_pairwise : ∀ (l : List (Nat × ORow)) (seen : List ORow),
    (pickNew seen l).Pairwise (fun p q => ¬ sP p.2 q.2) := by
  intro l
  induction l with
  | nil => intro seen; simp [pickNew]
  | cons q l ih =>
    intro seen
    simp only [pickNew]
    by_cases hq : seen.any (fun x => samePairB x q.2) = true
    · rw [if_pos hq]; exact ih seen
    · rw [if_neg hq]
      refine List.Pairwise.cons ?_ (ih (seen ++ [q.2]))
      intro p hp
      exact pickNew_not_seen l (seen ++ [q.2]) p hp q.2 (by simp)

theorem pickNew_covers : ∀ (l : List (Nat × ORow)) (seen : List ORow) (x : Nat × ORow),
    x ∈ l → (∃ s ∈ seen, sP s x.2) ∨ (∃ p ∈ pickNew seen l, sP p.2 x.2) := by
  intro l
  induction l with
  | nil => intro seen x h; simp at h
  | cons q l ih =>
    intro seen x hx
    simp only [pickNew]
    by_cases hq : seen.any (fun y => samePairB y q.2) = true
    · rw [if_pos hq]
      rcases List.mem_cons.mp hx with h | h
      · subst h
        rcases List.any_eq_true.mp hq with ⟨s, hs, hsp⟩
        exact Or.inl ⟨s, hs, samePairB_iff.mp hsp⟩
      · exact ih seen x h
    · rw [if_neg hq]
      rcases List.mem_cons.mp hx with h | h
      · subst h
        exact Or.inr ⟨x, List.mem_cons_self x _, sP_refl x.2⟩
      · rcases ih (seen ++ [q.2]) x h with ⟨s, hs, hsp⟩ | ⟨p, hp, hsp⟩
        · rcases List.mem_append.mp hs with hs | hs
          · exact Or.inl ⟨s, hs, hsp⟩
          · have hsq : s = q.2 := by simpa using hs
            exact Or.inr ⟨q, List.mem_cons_self q _, hsq ▸ hsp⟩
        · exact Or.inr ⟨p, List.mem_cons_of_mem q hp, hsp⟩

theorem key_mem_iff {df : List ORow} (hkf : KeysFaithful df) {seen : List ORow} {r : ORow}
    (hr : r ∈ df) (hseen : ∀ s ∈ seen, s ∈ df) :
    (rowKey r ∈ seen.map rowKey) ↔ seen.any (fun q => samePairB q r) = true := by
  rw [List.mem_map, List.any_eq_true]
  constructor
  · rintro ⟨s, hs, heq⟩
    exact ⟨s, hs, samePairB_iff.mpr ((hkf s (hseen s hs) r hr).mp heq)⟩
  · rintro ⟨s, hs, hsp⟩
    exact ⟨s, hs, (hkf s (hseen s hs) r hr).mpr (samePairB_iff.mp hsp)⟩

theorem reduce_loop_spec {df : List ORow} (e : List (Nat × ORow)) (hkf : KeysFaithful df) :
    ∀ (l : List (Nat × ORow)) (seen : List ORow) (rem : List Nat) (counts : List Nat),
      (∀ p ∈ l, p.2 ∈ df) → (∀ s ∈ seen, s ∈ df) →
      l.foldl (reduceStep e) (seen.map rowKey, rem, counts)
      = (seen.map rowKey ++ (pickNew seen l).map (fun p => rowKey p.2),
         rem ++ remsOf e (pickNew seen l),
         counts ++ (pickNew seen l).map (cntOf e)) := by
  intro l
  induction l with
  | nil =>
    intro seen rem counts _ _
    simp [pickNew, remsOf]
  | cons q l ih =>
    intro seen rem counts hl hseen
    have hq2 : q.2 ∈ df := hl q (List.mem_cons_self q l)
    simp only [List.foldl_cons, reduceStep, pickNew]
    by_cases hmem : rowKey q.2 ∈ seen.map rowKey
    · have hany : seen.any (fun x => samePairB x q.2) = true :=
        (key_mem_iff hkf hq2 hseen).mp hmem
      rw [if_pos hmem, if_pos hany]
      exact ih seen rem counts (fun p hp => hl p (List.mem_cons_of_mem q hp)) hseen
    · have hany : ¬ seen.any (fun x => samePairB x q.2) = true :=
        fun h => hmem ((key_mem_iff hkf hq2 hseen).mpr h)
      rw [if_neg hmem, if_neg hany]
      have hseen2 : ∀ s ∈ seen ++ [q.2], s ∈ df := by
        intro s hs
        rcases List.mem_append.mp hs with hs | hs
        · exact hseen s hs
        · have hsq : s = q.2 := by simpa using hs
          exact hsq ▸ hq2
      have happ : seen.map rowKey ++ [rowKey q.2] = (seen ++ [q.2]).map rowKey := by
        simp
      rw [happ]
      rw [ih (seen ++ [q.2]) (rem ++ remOf e q) (counts ++ [cntOf e q])
        (fun p hp => hl p (List.mem_cons_of_mem q hp)) hseen2]
      simp [remsOf, List.append_assoc]

theorem mem_classOf {e : List (Nat × ORow)} {r : ORow} {q : Nat × ORow} :
    q ∈ classOf e r ↔ q ∈ e ∧ sP q.2 r := by
  rw [classOf, List.mem_filter, samePairB_iff]

theorem minIdxOf_mem {e : List (Nat × ORow)} {p : Nat × ORow} (hp : p ∈ e) :
    minIdxOf e p ∈ (classOf e p.2).map Prod.fst := by
  rcases hmin : idxMin (classOf e p.2) with _ | m
  · have : minIdxOf e p = p.1 := by rw [minIdxOf, hmin]; rfl
    rw [this]
    exact List.mem_map.mpr ⟨p, mem_classOf.mpr ⟨hp, sP_refl p.2⟩, rfl⟩
  · have : minIdxOf e p = m := by rw [minIdxOf, hmin]; rfl
    rw [this]
    rcases Option.map_eq_some'.mp hmin with ⟨w, hw, hwm⟩
    exact List.mem_map.mpr ⟨w, List.mem_of_find?_eq_some hw, hwm⟩

theorem mem_remOf {e : List (Nat × ORow)} {p : Nat × ORow} {j : Nat} :
    j ∈ remOf e p ↔ (∃ q ∈ classOf e p.2, q.1 = j) ∧ j ≠ minIdxOf e p := by
  rw [remOf, List.mem_filter, List.mem_map]
  simp

theorem mem_remsOf {e : List (Nat × ORow)} {j : Nat} : ∀ (P : List (Nat × ORow)),
    j ∈ remsOf e P ↔ ∃ p ∈ P, j ∈ remOf e p := by
  intro P
  induction P with
  | nil => simp [remsOf]
  | cons p P ih => simp [remsOf, ih, List.mem_append]

theorem countP_split (p q : α → Bool) : ∀ (l : List α),
    l.countP p = (l.filter q).countP p + (l.filter (fun a => !(q a))).countP p := by
  intro l
  induction l with
  | nil => rfl
  | cons a l ih =>
    by_cases hq : q a = true
    · by_cases hp : p a = true <;>
        simp [List.filter_cons, List.countP_cons, hq, hp, ih] <;> omega
    · have hq2 : q a = false := by
        cases hqa : q a
        · rfl
        · exact absurd hqa hq
      by_cases hp : p a = true <;>
        simp [List.filter_cons, List.countP_cons, hq2, hp, ih] <;> omega

theorem partition_countP (f : (Nat × ORow) → Bool) :
    ∀ (Q : List (Nat × ORow)) (e : List (Nat × ORow)),
      Q.Pairwise (fun p q => ¬ sP p.2 q.2) →
      (∀ x ∈ e, ∃ p ∈ Q, sP p.2 x.2) →
      e.countP f = (Q.map (fun p => e.countP (fun x => samePairB x.2 p.2 && f x))).sum := by
  intro Q
  induction Q with
  | nil =>
    intro e _ hcov
    have he : e = [] := by
      cases e with
      | nil => rfl
      | cons x l =>
        rcases hcov x (List.mem_cons_self x l) with ⟨p, hp, _⟩
        exact absurd hp (by simp)
    subst he; rfl
  | cons p Q ih =>
    intro e hpw hcov
    have hhead := (List.pairwise_cons.mp hpw).1
    have hpwQ := (List.pairwise_cons.mp hpw).2
    have h1 : e.countP f = e.countP (fun x => f x && samePairB x.2 p.2)
        + (e.filter (fun x => !(samePairB x.2 p.2))).countP f := by
      rw [countP_split f (fun x => samePairB x.2 p.2) e, List.countP_filter]
    have h2 : ∀ q ∈ Q, e.countP (fun x => samePairB x.2 q.2 && f x)
        = (e.filter (fun x => !(samePairB x.2 p.2))).countP
            (fun x => samePairB x.2 q.2 && f x) := by
      intro q hq
      rw [countP_split (fun x => samePairB x.2 q.2 && f x) (fun x => samePairB x.2 p.2) e]
      have hzero : (e.filter (fun x => samePairB x.2 p.2)).countP
          (fun x => samePairB x.2 q.2 && f x) = 0 := by
        rw [List.countP_eq_zero]
        intro x hx hcon
        rcases List.mem_filter.mp hx with ⟨_, hxp⟩
        simp only [Bool.and_eq_true] at hcon
        have hxq : sP x.2 q.2 := samePairB_iff.mp hcon.1
        have hxp2 : sP x.2 p.2 := samePairB_iff.mp hxp
        exact hhead q hq (sP_trans (sP_symm hxp2) hxq)
      rw [hzero]
      omega
    have hcov2 : ∀ x ∈ e.filter (fun x => !(samePairB x.2 p.2)), ∃ q ∈ Q, sP q.2 x.2 := by
      intro x hx
      rcases List.mem_filter.mp hx with ⟨hxe, hxnp⟩
      rcases hcov x hxe with ⟨q, hq, hsp⟩
      rcases List.mem_cons.mp hq with heq | hq
      · exfalso
        have : samePairB x.2 p.2 = true := by
          rw [heq] at hsp
          exact samePairB_iff.mpr (sP_symm hsp)
        rw [this] at hxnp
        exact absurd hxnp (by simp)
      · exact ⟨q, hq, hsp⟩
    rw [List.map_cons, List.sum_cons, h1, ih _ hpwQ hcov2]
    have hcomm : e.countP (fun x => f x && samePairB x.2 p.2)
        = e.countP (fun x => samePairB x.2 p.2 && f x) := by
      apply List.countP_congr
      intro x _
      rw [Bool.and_comm]
    have hmaps : Q.map (fun q => (e.filter (fun x => !(samePairB x.2 p.2))).countP
          (fun x => samePairB x.2 q.2 && f x))
        = Q.map (fun q => e.countP (fun x => samePairB x.2 q.2 && f x)) := by
      apply List.map_congr_left
      intro q hq
      exact (h2 q hq).symm
    rw [hcomm, hmaps]

theorem countP_eq_one_of_unique {l : List α} (hnd : l.Nodup) {g : α → Bool}
    {w : α} (hw : w ∈ l) (hgw : g w = true) (huniq : ∀ x ∈ l, g x = true → x = w) :
    l.countP g = 1 := by
  rw [List.countP_eq_length_filter]
  have hmem : w ∈ l.filter g := List.mem_filter.mpr ⟨hw, hgw⟩
  have hall : ∀ x ∈ l.filter g, x = w := fun x hx =>
    huniq x (List.mem_filter.mp hx).1 (List.mem_filter.mp hx).2
  have hnodup : (l.filter g).Nodup := hnd.filter g
  rcases hfl : l.filter g with _ | ⟨a, rest⟩
  · rw [hfl] at hmem; exact absurd hmem (by simp)
  · rcases rest with _ | ⟨b, rest2⟩
    · rfl
    · exfalso
      rw [hfl] at hall hnodup
      have ha := hall a (by simp)
      have hb := hall b (by simp)
      rw [List.nodup_cons] at hnodup
      exact hnodup.1 (by rw [ha, ← hb]; exact List.mem_cons_self b rest2)

theorem grc_spec (df : List ORow) (combos : List String) (rem counts : List Nat)
    (hloop : (enumFromN 0 df).foldl (reduceStep (enumFromN 0 df)) ([], [], [])
      = (combos, rem, counts)) :
    get_residues_in_contact df =
      (if ((enumFromN 0 df).filter (fun x => decide (¬ x.1 ∈ rem))).length = counts.length
       then some (List.insertionSort pairLe
         ((((enumFromN 0 df).filter (fun x => decide (¬ x.1 ∈ rem))).zip counts).map
           (fun pc => ⟨pc.1.2, pc.2⟩)))
       else none) := by
  simp only [get_residues_in_contact]
  rw [hloop]

/-- C1 amended: for every oriented table whose row labels collide exactly when
the ordered (ordinate, abscissa) position pairs coincide, the reducer
succeeds, no two output rows share the same ORDERED position pair (swapped
orientations are kept separately), and the "atoms contacts" column sums to
the input row count. -/
theorem C1_amended (df : List ORow) (hkf : KeysFaithful df) :
    ∃ out, get_residues_in_contact df = some out ∧
      out.Pairwise (fun a b => ¬ sP a.base b.base) ∧
      (out.map (fun r => r.atomsContacts)).sum = df.length := by
  set e := enumFromN 0 df with he
  have hle : ∀ p ∈ e, p.2 ∈ df := by
    rw [he]; exact fun p hp => mem_enumFromN_snd hp
  have hloop := reduce_loop_spec e hkf e [] [] [] hle
    (by intro s hs; exact absurd hs (by simp))
  simp only [List.map_nil, List.nil_append] at hloop
  set P := pickNew [] e with hPdef
  set rem := remsOf e P with hremdef
  set counts := P.map (cntOf e) with hcountsdef
  set kept := e.filter (fun x => decide (¬ x.1 ∈ rem)) with hkeptdef
  have hPpw : P.Pairwise (fun p q => ¬ sP p.2 q.2) := by
    rw [hPdef]; exact pickNew_pairwise e []
  have hPsub : ∀ p ∈ P, p ∈ e := by
    rw [hPdef]; exact fun p hp => pickNew_subset e [] p hp
  have hPcov : ∀ x ∈ e, ∃ p ∈ P, sP p.2 x.2 := by
    rw [hPdef]
    intro x hx
    rcases pickNew_covers e [] x hx with ⟨s, hs, _⟩ | h
    · exact absurd hs (by simp)
    · exact h
  have hend : e.Nodup := by rw [he]; exact enumFromN_nodup 0 df
  have hinj : ∀ x ∈ e, ∀ y ∈ e, x.1 = y.1 → x = y := by
    intro x hx y hy hxy
    rw [he] at hx hy
    exact enumFromN_fst_inj hx hy hxy
  have hmin : ∀ p ∈ P, ∃ w ∈ classOf e p.2, w.1 = minIdxOf e p := by
    intro p hp
    rcases List.mem_map.mp (minIdxOf_mem (hPsub p hp)) with ⟨w, hw, hww⟩
    exact ⟨w, hw, hww⟩
  have hmemrem : ∀ x ∈ e, (x.1 ∈ rem ↔ ∃ p ∈ P, sP x.2 p.2 ∧ x.1 ≠ minIdxOf e p) := by
    intro x hx
    rw [hremdef, mem_remsOf]
    constructor
    · rintro ⟨p, hp, hj⟩
      rcases mem_remOf.mp hj with ⟨⟨q, hq, hq1⟩, hne⟩
      have hqx : q = x := hinj q (mem_classOf.mp hq).1 x hx hq1
      exact ⟨p, hp, hqx ▸ (mem_classOf.mp hq).2, hne⟩
    · rintro ⟨p, hp, hsp, hne⟩
      exact ⟨p, hp, mem_remOf.mpr ⟨⟨x, mem_classOf.mpr ⟨hx, hsp⟩, rfl⟩, hne⟩⟩
  have hkeep : ∀ x ∈ e, ((decide (¬ x.1 ∈ rem)) = true ↔
      ∀ p ∈ P, sP x.2 p.2 → x.1 = minIdxOf e p) := by
    intro x hx
    rw [decide_eq_true_eq, hmemrem x hx]
    push_neg
    rfl
  have hrepu : ∀ p ∈ P, ∀ q ∈ P, sP p.2 q.2 → p = q := by
    intro p hp q hq hsp
    by_contra hne
    have hsymm : Symmetric (fun a b : Nat × ORow => ¬ sP a.2 b.2) :=
      fun a b h hs => h (sP_symm hs)
    exact (hPpw.forall hsymm hp hq hne) hsp
  have hcnt1 : ∀ p ∈ P,
      e.countP (fun x => samePairB x.2 p.2 && decide (¬ x.1 ∈ rem)) = 1 := by
    intro p hp
    rcases hmin p hp with ⟨w, hwcls, hwm⟩
    have hwe : w ∈ e := (mem_classOf.mp hwcls).1
    have hwsp : sP w.2 p.2 := (mem_classOf.mp hwcls).2
    apply countP_eq_one_of_unique hend hwe
    · simp only [Bool.and_eq_true]
      refine ⟨samePairB_iff.mpr hwsp, ?_⟩
      rw [hkeep w hwe]
      intro p2 hp2 hsp2
      have hpp : p2 = p := hrepu p2 hp2 p hp (sP_trans (sP_symm hsp2) hwsp)
      rw [hpp]
      exact hwm
    · intro x hx hgx
      simp only [Bool.and_eq_true] at hgx
      have hxsp : sP x.2 p.2 := samePairB_iff.mp hgx.1
      have hx1 : x.1 = minIdxOf e p := ((hkeep x hx).mp hgx.2) p hp hxsp
      exact hinj x hx w hwe (hx1.trans hwm.symm)
  have hsum : counts.sum = e.length := by
    have hpart := partition_countP (fun _ => true) P e hPpw hPcov
    rw [List.countP_true] at hpart
    rw [hcountsdef, hpart]
    congr 1
    apply List.map_congr_left
    intro p _
    rw [cntOf, classOf, ← List.countP_eq_length_filter]
    apply List.countP_congr
    intro x _
    rw [Bool.and_true]
  have hkeptlen : kept.length = P.length := by
    rw [hkeptdef, ← List.countP_eq_length_filter]
    rw [partition_countP (fun x => decide (¬ x.1 ∈ rem)) P e hPpw hPcov]
    have hmapeq : P.map (fun p =>
        e.countP (fun x => samePairB x.2 p.2 && decide (¬ x.1 ∈ rem)))
        = P.map (fun _ => 1) := List.map_congr_left (fun p hp => hcnt1 p hp)
    rw [hmapeq]
    simp
  have hcountslen : counts.length = P.length := by rw [hcountsdef, List.length_map]
  have hlen : kept.length = counts.length := by rw [hkeptlen, hcountslen]
  have hkeptnd : kept.Nodup := by rw [hkeptdef]; exact hend.filter _
  have hkeptmem : ∀ x ∈ kept, x ∈ e ∧ (decide (¬ x.1 ∈ rem)) = true := by
    intro x hx
    rw [hkeptdef] at hx
    exact List.mem_filter.mp hx
  have hkeptforall : ∀ x ∈ kept, ∀ y ∈ kept, sP x.2 y.2 → x = y := by
    intro x hx y hy hsp
    obtain ⟨hxe, hxk⟩ := hkeptmem x hx
    obtain ⟨hye, hyk⟩ := hkeptmem y hy
    rcases hPcov x hxe with ⟨p, hp, hpx⟩
    have hx1 : x.1 = minIdxOf e p := ((hkeep x hxe).mp hxk) p hp (sP_symm hpx)
    have hy1 : y.1 = minIdxOf e p := ((hkeep y hye).mp hyk) p hp
      (sP_symm (sP_trans hpx hsp))
    exact hinj x hxe y hye (hx1.trans hy1.symm)
  have hkeptpw : kept.Pairwise (fun x y => ¬ sP x.2 y.2) := by
    have hpne : kept.Pairwise (fun x y => x ≠ y) := hkeptnd
    apply List.Pairwise.imp_of_mem ?_ hpne
    intro a b ha hb hne
    exact fun hsp => hne (hkeptforall a ha b hb hsp)
  have hloop0 : (enumFromN 0 df).foldl (reduceStep (enumFromN 0 df)) ([], [], [])
      = (P.map (fun p => rowKey p.2), rem, counts) := by
    rw [← he]; exact hloop
  refine ⟨List.insertionSort pairLe ((kept.zip counts).map (fun pc => ⟨pc.1.2, pc.2⟩)),
    ?_, ?_, ?_⟩
  · rw [grc_spec df _ rem counts hloop0, ← he, ← hkeptdef, if_pos hlen]
  · have hperm := List.perm_insertionSort pairLe
      ((kept.zip counts).map (fun pc => (⟨pc.1.2, pc.2⟩ : PairRow)))
    have hsym : Symmetric (fun a b : PairRow => ¬ sP a.base b.base) :=
      fun a b h hs => h (sP_symm hs)
    rw [hperm.pairwise_iff (fun h => hsym h), List.pairwise_map]
    have hfst : (kept.zip counts).map Prod.fst = kept :=
      List.map_fst_zip kept counts (le_of_eq hlen)
    have h2 := (List.pairwise_map (f := Prod.fst) (l := kept.zip counts)
      (R := fun x y : Nat × ORow => ¬ sP x.2 y.2))
    rw [hfst] at h2
    exact h2.mp hkeptpw
  · have hperm := List.perm_insertionSort pairLe
      ((kept.zip counts).map (fun pc => (⟨pc.1.2, pc.2⟩ : PairRow)))
    have hpermmap := hperm.map (fun r : PairRow => r.atomsContacts)
    rw [hpermmap.sum_eq]
    have hmapsnd : ((kept.zip counts).map (fun pc => (⟨pc.1.2, pc.2⟩ : PairRow))).map
        (fun r : PairRow => r.atomsContacts) = counts := by
      rw [List.map_map]
      exact List.map_snd_zip kept counts (le_of_eq hlen.symm)
    rw [hmapsnd, hsum, he, enumFromN_length]

/-- C1 amended witness at a concrete three-row table with faithful labels. -/
theorem C1_amended_witness :
    ∃ out, get_residues_in_contact c1winput = some out ∧
      out.Pairwise (fun a b => ¬ sP a.base b.base) ∧
      (out.map (fun r => r.atomsContacts)).sum = c1winput.length :=
  C1_amended c1winput (by decide)
